import Mathlib

/-!
A verification development for a wafer-scheduling system.

The system assigns wafers (jobs carrying a priority and a recipe) to machines
(each with a recipe-to-duration table), via a greedy discrete-event simulation
(two tie-break policies) or an exact MILP formulation, and validates candidate
schedules with three independent rules.

Times and durations are embedded as integers (minutes), timestamps as integer
minutes anchored at a fixed reference instant, and priority weights as
rationals.  Python dictionaries are
embedded as insertion-ordered association lists with first-match lookup, and
the unbounded `while` loop of the greedy simulation is embedded with explicit
fuel, returning `none` when the fuel runs out before the DONE state.
-/

namespace WafersSchedule

/-- Recipe identifiers are plain strings. -/
abbrev RecipeId := String

/-- Wafer priorities, domain_models/wafer.py `Priority`. -/
inductive Priority where
  | red
  | orange
  | yellow
deriving DecidableEq, Repr

/-- domain_models/wafer.py `PRIORITY_WEIGHTS`. -/
def PRIORITY_WEIGHTS : Priority → ℚ
  | .red => 1
  | .orange => 1 / 2
  | .yellow => 1 / 10

/-- domain_models/wafer.py `Wafer`.  `compatible_machines` starts empty and is
filled in by the scheduler (`_update_wafers_compatible_assignments_by_name`). -/
structure Wafer where
  name : String
  priority : Priority
  recipe : RecipeId
  priority_number : ℚ
  compatible_machines : List String
deriving DecidableEq, Repr

/-- `Wafer.__init__`: the priority number is derived from the priority via
`PRIORITY_WEIGHTS`, and `compatible_machines` starts as the empty list. -/
def mkWafer (name : String) (priority : Priority) (recipe : RecipeId) : Wafer :=
  { name := name
    priority := priority
    recipe := recipe
    priority_number := PRIORITY_WEIGHTS priority
    compatible_machines := [] }

/-- domain_models/machine.py `Machine`.  The processing-time dictionary is an
insertion-ordered association list from recipe to duration in minutes. -/
structure Machine where
  name : String
  processing_time_by_recipe : List (RecipeId × ℤ)
  is_busy : Bool
  free_time : ℤ
deriving DecidableEq, Repr

/-- `Machine.__init__`: runtime fields start as not busy / free at time 0. -/
def mkMachine (name : String) (processing_time_by_recipe : List (RecipeId × ℤ)) : Machine :=
  { name := name
    processing_time_by_recipe := processing_time_by_recipe
    is_busy := false
    free_time := 0 }

/-- Re-running `Machine.__init__` on the identity data of an existing machine:
what a freshly constructed copy of the machine looks like. -/
def resetMachine (m : Machine) : Machine :=
  mkMachine m.name m.processing_time_by_recipe

/-- Python `recipe in machine.processing_time_by_recipe` (dict key test). -/
def containsKey (tbl : List (RecipeId × ℤ)) (r : RecipeId) : Bool :=
  tbl.any (fun p => p.1 == r)

/-- Python `machine.processing_time_by_recipe[recipe]` (dict lookup; keys are
unique by construction so first-match lookup coincides with dict lookup). -/
def lookupRecipe (tbl : List (RecipeId × ℤ)) (r : RecipeId) : Option ℤ :=
  (tbl.find? (fun p => p.1 == r)).map (fun p => p.2)

/-- domain_models/input_data.py `InputData`. -/
structure InputData where
  wafers : List Wafer
  machines : List Machine
deriving DecidableEq, Repr

/-- domain_models/schedule.py `DispatchDecision`.  `stop` embeds the source
field `end` (a Lean keyword); both times are absolute timestamps. -/
structure DispatchDecision where
  wafer : Wafer
  machine : Machine
  start : ℤ
  stop : ℤ
deriving DecidableEq, Repr

/-- domain_models/schedule.py `Schedule`. -/
structure Schedule where
  dispatch_decisions : List DispatchDecision
deriving DecidableEq, Repr

/-- base_scheduler.py: `self.initial_timestamp = datetime(2022, 11, 14, 9, 0)`,
expressed in minutes since the Unix epoch. -/
def initialTimestamp : ℤ := 27806940

/-- utils/evaluation.py `Evaluation`; the Python code stores `None` in the two
name fields when no wafer is selected. -/
structure Evaluation where
  is_wafer_selected : Bool
  wafer_name : Option String
  machine_name : Option String
deriving DecidableEq, Repr

/-- The comparison realised by Python's stable `sorted` with key
`(-x.priority_number, x.name)` (base_scheduler.py `_initialize_wafers_list`). -/
def waferRel (a b : Wafer) : Prop :=
  -a.priority_number < -b.priority_number ∨
    (-a.priority_number = -b.priority_number ∧ a.name ≤ b.name)

instance : DecidableRel waferRel := fun a b =>
  inferInstanceAs (Decidable (-a.priority_number < -b.priority_number ∨
    (-a.priority_number = -b.priority_number ∧ a.name ≤ b.name)))

/-- base_scheduler.py `_initialize_wafers_list`: sort the input wafers with a
stable sort by (descending priority number, ascending name).  Python's
`sorted` is a stable sort; `List.insertionSort` realises the same function. -/
def initWafersList (wafers : List Wafer) : List Wafer :=
  List.insertionSort waferRel wafers

/-- legacy_scheduler.py `_update_wafers_compatible_assignments_by_name`:
each wafer's `compatible_machines` becomes the list of names of the machines
whose processing-time table contains the wafer's recipe. -/
def updateWafersCompatibleAssignmentsByName (wafers : List Wafer) (machines : List Machine) :
    List Wafer :=
  wafers.map (fun w =>
    let compatible := machines.filter (fun m => containsKey m.processing_time_by_recipe w.recipe)
    { w with compatible_machines := compatible.map (fun m => m.name) })

/-- The mutable state of a greedy scheduler run (`LegacyScheduler.__init__`):
the sorted wafer list with compatibility filled in, the machine list (runtime
fields mutate during the run), the insertion-ordered dictionary
`scheduled_wafers_names_dict` mapping wafer name to (machine name, start, end)
in relative minutes, and the logical clock `current_time`. -/
structure SimState where
  wafers_list : List Wafer
  machines_list : List Machine
  scheduled : List (String × String × ℤ × ℤ)
  current_time : ℤ
deriving DecidableEq, Repr

/-- `LegacyScheduler.__init__` (shared by `BetterScheduler`): sort the wafers,
fill in compatibility, keep the machines as given (no reset of their runtime
fields), empty schedule dictionary, clock at 0. -/
def initState (input : InputData) : SimState :=
  { wafers_list := updateWafersCompatibleAssignmentsByName (initWafersList input.wafers) input.machines
    machines_list := input.machines
    scheduled := []
    current_time := 0 }

/-- legacy_scheduler.py `_evaluate_wafer_machine_assignment` (policy A,
first-fit): the first free compatible machine in machine-list order. -/
def evaluateWaferMachineAssignment (machines : List Machine) (current_wafer : Wafer) :
    Evaluation :=
  let available_machines := machines.filter
    (fun m => current_wafer.compatible_machines.contains m.name && !m.is_busy)
  match available_machines.head? with
  | some m => ⟨true, some current_wafer.name, some m.name⟩
  | none => ⟨false, none, none⟩

/-- The sort key used by `BetterScheduler._evaluate_wafer_machine_assignment`:
`x.processing_time_by_recipe[current_wafer.recipe]`.  The Python lookup cannot
fail there because the machine was filtered to be compatible; the `getD 0`
default is never exercised on those inputs. -/
def processingTimeKey (current_wafer : Wafer) (m : Machine) : ℤ :=
  (lookupRecipe m.processing_time_by_recipe current_wafer.recipe).getD 0

/-- better_scheduler.py `_evaluate_wafer_machine_assignment` (policy B,
best-fit): stable-sort the free compatible machines by processing time for the
wafer's recipe and take the first. -/
def betterEvaluateAssignment (machines : List Machine) (current_wafer : Wafer) :
    Evaluation :=
  let available_machines := machines.filter
    (fun m => current_wafer.compatible_machines.contains m.name && !m.is_busy)
  let machines_sorted := List.insertionSort
    (fun a b => processingTimeKey current_wafer a ≤ processingTimeKey current_wafer b)
    available_machines
  match machines_sorted.head? with
  | some m => ⟨true, some current_wafer.name, some m.name⟩
  | none => ⟨false, none, none⟩

/-- Python mutation of the machine object returned by `_pick_machine_by_name`
(the first machine with the given name): set it busy until `t`. -/
def setBusyFirst : List Machine → String → ℤ → List Machine
  | [], _, _ => []
  | m :: ms, n, t =>
    if m.name == n then { m with is_busy := true, free_time := t } :: ms
    else m :: setBusyFirst ms n t

/-- legacy_scheduler.py `_update_assignment`: look the wafer and machine up by
name, read the processing time for the wafer's recipe, record the decision in
the schedule dictionary and mark the machine busy until the end time.  The
fallback branches mirror inputs on which the Python code would raise. -/
def updateAssignment (st : SimState) (ev : Evaluation) : SimState :=
  match ev.wafer_name, ev.machine_name with
  | some wafer_name, some machine_name =>
    match st.wafers_list.find? (fun w => w.name == wafer_name),
          st.machines_list.find? (fun m => m.name == machine_name) with
    | some wafer, some machine =>
      match lookupRecipe machine.processing_time_by_recipe wafer.recipe with
      | some processing_time =>
        let initial_time := st.current_time
        let final_time := st.current_time + processing_time
        { st with
          scheduled := st.scheduled ++ [(wafer_name, machine_name, initial_time, final_time)]
          machines_list := setBusyFirst st.machines_list machine_name final_time }
      | none => st
    | _, _ => st
  | _, _ => st

/-- legacy_scheduler.py `_update_remaining_wafers`: for every wafer not yet in
the schedule dictionary (computed up front), in order, evaluate an assignment
against the current machine state and record it when one is selected.  The
evaluation policy is a parameter (policy A or policy B). -/
def updateRemainingWafers (evalFn : List Machine → Wafer → Evaluation) (st : SimState) :
    SimState :=
  let remaining_wafers := st.wafers_list.filter
    (fun w => !(st.scheduled.any (fun e => e.1 == w.name)))
  remaining_wafers.foldl
    (fun s wafer =>
      let ev := evalFn s.machines_list wafer
      if ev.is_wafer_selected then updateAssignment s ev else s)
    st

/-- legacy_scheduler.py `_update_busy_machines`: when some machine is busy,
advance the clock to the minimum `free_time` among busy machines and free every
machine whose `free_time` equals it. -/
def updateBusyMachines (st : SimState) : SimState :=
  match (st.machines_list.filter (fun m => m.is_busy)).map (fun m => m.free_time) with
  | [] => st
  | t :: ts =>
    let next_time := ts.foldl min t
    { st with
      machines_list := st.machines_list.map
        (fun m => if m.free_time == next_time then { m with is_busy := false } else m)
      current_time := next_time }

/-- legacy_scheduler.py `_check_simulation_termination`. -/
def checkSimulationTermination (st : SimState) : Bool :=
  (st.wafers_list.filter (fun w => !(st.scheduled.any (fun e => e.1 == w.name)))).isEmpty

/-- legacy_scheduler.py `_run_simulation`: one iteration of the event loop. -/
def runSimulation (evalFn : List Machine → Wafer → Evaluation) (st : SimState) :
    SimState × Bool :=
  let st1 := updateRemainingWafers evalFn st
  let st2 := updateBusyMachines st1
  (st2, checkSimulationTermination st2)

/-- The `while not terminate_simulation` loop of `LegacyScheduler.schedule`,
with explicit fuel: `none` means the loop has not reached DONE within `fuel`
iterations (the Python loop has no guard and simply keeps running). -/
def scheduleLoop (evalFn : List Machine → Wafer → Evaluation) :
    Nat → SimState → Option SimState
  | 0, _ => none
  | fuel + 1, st =>
    match runSimulation evalFn st with
    | (st2, true) => some st2
    | (st2, false) => scheduleLoop evalFn fuel st2

/-- The comparison realised by `sorted(..., key=lambda x: (x.machine.name, x.start))`. -/
def decisionRel (a b : DispatchDecision) : Prop :=
  a.machine.name < b.machine.name ∨ (a.machine.name = b.machine.name ∧ a.start ≤ b.start)

instance : DecidableRel decisionRel := fun a b =>
  inferInstanceAs (Decidable (a.machine.name < b.machine.name ∨
    (a.machine.name = b.machine.name ∧ a.start ≤ b.start)))

/-- legacy_scheduler.py `_create_final_schedule_object`: convert the schedule
dictionary entries (in insertion order) to decisions with absolute timestamps,
then stable-sort by (machine name, start).  The `filterMap` drops entries on
which the Python name lookups would return `None` and crash; such entries never
occur in reachable states. -/
def createFinalScheduleObject (st : SimState) : Schedule :=
  let final_schedule := st.scheduled.filterMap (fun e =>
    match st.wafers_list.find? (fun w => w.name == e.1),
          st.machines_list.find? (fun m => m.name == e.2.1) with
    | some wafer, some machine =>
      some ⟨wafer, machine, initialTimestamp + e.2.2.1, initialTimestamp + e.2.2.2⟩
    | _, _ => none)
  ⟨List.insertionSort decisionRel final_schedule⟩

/-- `LegacyScheduler(input_data).schedule()` with explicit fuel. -/
def legacyScheduleRun (fuel : Nat) (input : InputData) : Option Schedule :=
  (scheduleLoop evaluateWaferMachineAssignment fuel (initState input)).map
    createFinalScheduleObject

/-- `BetterScheduler(input_data).schedule()` with explicit fuel. -/
def betterScheduleRun (fuel : Nat) (input : InputData) : Option Schedule :=
  (scheduleLoop betterEvaluateAssignment fuel (initState input)).map
    createFinalScheduleObject

/-- validators.py `AllWafersHaveBeenScheduled.validate`: every input wafer is a
member of the list of wafers referenced by the decisions. -/
def allWafersHaveBeenScheduledValidate (input : InputData) (schedule : Schedule) : Bool :=
  let scheduled_wafers := schedule.dispatch_decisions.map (fun d => d.wafer)
  input.wafers.all (fun w => decide (w ∈ scheduled_wafers))

/-- validators.py `AllWafersAreOnCompatibleMachines.validate`. -/
def allWafersAreOnCompatibleMachinesValidate (schedule : Schedule) : Bool :=
  schedule.dispatch_decisions.all
    (fun d => containsKey d.machine.processing_time_by_recipe d.wafer.recipe)

/-- One step of validators.py `_extract_intervals_data`: record a decision's
interval under its machine, appending to the machine's existing group when the
machine is already a key of the dictionary. -/
def addIntervalEntry (machines_dict : List (Machine × List (ℤ × ℤ))) (d : DispatchDecision) :
    List (Machine × List (ℤ × ℤ)) :=
  if machines_dict.any (fun g => g.1 == d.machine) then
    machines_dict.map (fun g =>
      if g.1 == d.machine then (g.1, g.2 ++ [(d.start, d.stop)]) else g)
  else
    machines_dict ++ [(d.machine, [(d.start, d.stop)])]

/-- validators.py `NoOverlapsOnSameMachine._extract_intervals_data`: group the
decision intervals by machine, in order of appearance (no sorting). -/
def extractIntervalsData (schedule : Schedule) : List (Machine × List (ℤ × ℤ)) :=
  schedule.dispatch_decisions.foldl addIntervalEntry []

/-- The booleans appended by `_evaluate_overlapping` for one machine's group:
one comparison `end[i] <= start[i+1]` per consecutive pair in given order. -/
def consecutiveBools : List (ℤ × ℤ) → List Bool
  | a :: b :: rest => decide (a.2 ≤ b.1) :: consecutiveBools (b :: rest)
  | _ => []

/-- validators.py `NoOverlapsOnSameMachine._evaluate_overlapping`: `min` over
the collected booleans; Python's `min` raises `ValueError` on an empty list,
embedded as `none`. -/
def evaluateOverlapping (machines_dict : List (Machine × List (ℤ × ℤ))) : Option Bool :=
  let booleans_list := machines_dict.flatMap (fun g => consecutiveBools g.2)
  match booleans_list with
  | [] => none
  | b :: bs => some (bs.foldl (fun x y => x && y) b)

/-- validators.py `NoOverlapsOnSameMachine.validate`: the minimum (i.e. the
conjunction) of the per-decision `end - start >= 0` condition and the pairwise
overlap condition; `none` when `_evaluate_overlapping` raises. -/
def noOverlapsOnSameMachineValidate (schedule : Schedule) : Option Bool :=
  let machines_dict := extractIntervalsData schedule
  let sequence_condition := schedule.dispatch_decisions.all
    (fun d => decide (0 ≤ d.stop - d.start))
  match evaluateOverlapping machines_dict with
  | some overlapping_condition => some (sequence_condition && overlapping_condition)
  | none => none

/-- validators.py `ScheduleChecker.check`: run the three validators in order
and report each verdict; `none` when the third validator raises, in which case
no complete report is produced. -/
def scheduleCheck (input : InputData) (schedule : Schedule) : Option (Bool × Bool × Bool) :=
  let first := allWafersHaveBeenScheduledValidate input schedule
  let second := allWafersAreOnCompatibleMachinesValidate schedule
  match noOverlapsOnSameMachineValidate schedule with
  | some third => some (first, second, third)
  | none => none

/-- utils/mip_parameters.py `MipParameters`. -/
structure MipParameters where
  priority_number : List (String × ℚ)
  compatible_assignments : List ((String × String) × Nat)
  processing_times : List ((String × String) × ℤ)
  big_m : ℤ
  pwct_weight : ℚ
  makespan_weight : ℚ
deriving DecidableEq, Repr

/-- milp_scheduler.py `_define_priority_number_parameter`. -/
def definePriorityNumberParameter (wafers : List Wafer) : List (String × ℚ) :=
  wafers.map (fun w => (w.name, w.priority_number))

/-- milp_scheduler.py `_define_compatible_assignments_parameter`: value 1 for
every wafer-machine pair whose machine can process the wafer's recipe. -/
def defineCompatibleAssignmentsParameter (wafers : List Wafer) (machines : List Machine) :
    List ((String × String) × Nat) :=
  wafers.flatMap (fun w =>
    (machines.filter (fun m => containsKey m.processing_time_by_recipe w.recipe)).map
      (fun m => ((w.name, m.name), 1)))

/-- milp_scheduler.py `_define_processing_times_parameter`. -/
def defineProcessingTimesParameter (wafers : List Wafer) (machines : List Machine) :
    List ((String × String) × ℤ) :=
  wafers.flatMap (fun w =>
    (machines.filter (fun m => containsKey m.processing_time_by_recipe w.recipe)).filterMap
      (fun m => (lookupRecipe m.processing_time_by_recipe w.recipe).map
        (fun t => ((w.name, m.name), t))))

/-- milp_scheduler.py `_define_processing_time_big_m`: the sum of all the
processing times of compatible pairs. -/
def defineProcessingTimeBigM (processing_times : List ((String × String) × ℤ)) : ℤ :=
  (processing_times.map (fun p => p.2)).sum

/-- milp_scheduler.py `_define_objective_function_weights`: reject a weight
outside [0, 1], otherwise return the pair (pwct weight, makespan weight). -/
def defineObjectiveFunctionWeights (pwct_weight : ℚ) : Except String (ℚ × ℚ) :=
  if pwct_weight < 0 ∨ pwct_weight > 1 then
    .error "pwct_weight parameter must be in [0, 1] range"
  else
    .ok (pwct_weight, 1 - pwct_weight)

/-- milp_scheduler.py `_create_parameters_placeholder`: build the parameter
dictionaries, then the objective weights (which may raise), then the
`MipParameters` placeholder. -/
def createParametersPlaceholder (wafers : List Wafer) (machines : List Machine)
    (pwct_weight : ℚ) : Except String MipParameters :=
  let priority_number := definePriorityNumberParameter wafers
  let compatible_assignments := defineCompatibleAssignmentsParameter wafers machines
  let processing_times := defineProcessingTimesParameter wafers machines
  let big_m := defineProcessingTimeBigM processing_times
  match defineObjectiveFunctionWeights pwct_weight with
  | .error e => .error e
  | .ok (pw, mw) =>
    .ok ⟨priority_number, compatible_assignments, processing_times, big_m, pw, mw⟩

/-- Python `(wafer, machine) in self.mip_model.compatible_assignments`. -/
def isCompatiblePair (compatible_assignments : List ((String × String) × Nat))
    (wafer_name machine_name : String) : Bool :=
  compatible_assignments.any (fun p => p.1 == (wafer_name, machine_name))

/-- The sparse optimization model built by milp_scheduler.py `_create_model`:
the wafer and machine name sets, the parameters, and the index sets of the
variables that survive the sparsity deletions (`del` on incompatible indices). -/
structure MipModel where
  wafers : List String
  machines : List String
  params : MipParameters
  assignment_variable_index : List (String × String)
  binary_variable_index : List (String × String × String)
  sequence_variable_index : List (String × String × String)
deriving DecidableEq, Repr

/-- milp_scheduler.py `_create_model` (sets, parameters and sparse variable
index sets; constraints range over the same sparse index sets). -/
def createModel (wafers : List Wafer) (machines : List Machine) (params : MipParameters) :
    MipModel :=
  let wafers_set := wafers.map (fun w => w.name)
  let machines_set := machines.map (fun m => m.name)
  let ca := params.compatible_assignments
  { wafers := wafers_set
    machines := machines_set
    params := params
    assignment_variable_index :=
      (wafers_set.flatMap (fun w => machines_set.map (fun m => (w, m)))).filter
        (fun p => isCompatiblePair ca p.1 p.2)
    binary_variable_index :=
      (wafers_set.flatMap (fun w1 => wafers_set.flatMap (fun w2 =>
        machines_set.map (fun m => (w1, w2, m))))).filter
        (fun p => isCompatiblePair ca p.1 p.2.2 && isCompatiblePair ca p.2.1 p.2.2)
    sequence_variable_index :=
      (wafers_set.flatMap (fun w1 => wafers_set.flatMap (fun w2 =>
        machines_set.map (fun m => (w1, w2, m))))).filter
        (fun p => isCompatiblePair ca p.1 p.2.2 && isCompatiblePair ca p.2.1 p.2.2 &&
          decide (p.1 < p.2.1)) }

/-- The status report of the external solver collaborator (pyomo/GLPK). -/
inductive SolverStatus where
  | ok
  | warning
  | error
  | aborted
deriving DecidableEq, Repr

/-- The termination condition reported by the external solver collaborator. -/
inductive TerminationCondition where
  | optimal
  | feasible
  | infeasible
  | maxTimeLimit
  | error
deriving DecidableEq, Repr

/-- What the opaque solver collaborator hands back: a status, a termination
condition, and the variable values (end times and assignment indicators),
embedded as arbitrary functions of the names. -/
structure SolverResult where
  status : SolverStatus
  termination_condition : TerminationCondition
  end_variable : String → ℤ
  assignment_variable : String → String → ℤ

def solverStatusName : SolverStatus → String
  | .ok => "ok"
  | .warning => "warning"
  | .error => "error"
  | .aborted => "aborted"

def terminationConditionName : TerminationCondition → String
  | .optimal => "optimal"
  | .feasible => "feasible"
  | .infeasible => "infeasible"
  | .maxTimeLimit => "maxTimeLimit"
  | .error => "error"

/-- milp_scheduler.py `_extract_results`: accept only solver status `ok` with
termination condition `optimal` or `feasible`; anything else raises. -/
def extractResults (results : SolverResult) : Except String Unit :=
  if results.status == SolverStatus.ok &&
      (results.termination_condition == TerminationCondition.optimal ||
        results.termination_condition == TerminationCondition.feasible) then
    .ok ()
  else
    .error ("Problem with solver: status - " ++ solverStatusName results.status ++
      " and termination_condition - " ++ terminationConditionName results.termination_condition)

/-- Python `self.mip_parameters.processing_times[(wafer_name, machine_name)]`. -/
def lookupProcessingTime (processing_times : List ((String × String) × ℤ))
    (wafer_name machine_name : String) : Option ℤ :=
  (processing_times.find? (fun p => p.1 == (wafer_name, machine_name))).map (fun p => p.2)

/-- milp_scheduler.py `_get_decision_times`: start is the solver's end value
minus the processing time, end is the solver's end value, both shifted to
absolute timestamps. -/
def getDecisionTimes (processing_times : List ((String × String) × ℤ))
    (end_variable : String → ℤ) (wafer_name machine_name : String) : Option (ℤ × ℤ) :=
  (lookupProcessingTime processing_times wafer_name machine_name).map (fun processing_time =>
    (initialTimestamp + (end_variable wafer_name - processing_time),
     initialTimestamp + end_variable wafer_name))

/-- milp_scheduler.py `_create_final_schedule_object`: for every surviving
assignment-variable index with solver value 1, build a decision from the solver
times and the wafer/machine objects found by name; sort by (machine, start). -/
def milpCreateFinalScheduleObject (wafers : List Wafer) (machines : List Machine)
    (model : MipModel) (results : SolverResult) : Schedule :=
  let final_schedule := model.assignment_variable_index.filterMap (fun p =>
    if results.assignment_variable p.1 p.2 == 1 then
      match getDecisionTimes model.params.processing_times results.end_variable p.1 p.2,
            wafers.find? (fun w => w.name == p.1),
            machines.find? (fun m => m.name == p.2) with
      | some (start, stop), some wafer, some machine => some ⟨wafer, machine, start, stop⟩
      | _, _, _ => none
    else none)
  ⟨List.insertionSort decisionRel final_schedule⟩

/-- `MILPScheduler(input_data).schedule(...)`: validate the objective weights
while building the parameter placeholder, build the model, call the opaque
solver collaborator, check its status, and extract the schedule. -/
def milpScheduleRun (input : InputData) (pwct_weight : ℚ)
    (solver : MipModel → SolverResult) : Except String Schedule :=
  let wafers_list := initWafersList input.wafers
  match createParametersPlaceholder wafers_list input.machines pwct_weight with
  | .error e => .error e
  | .ok params =>
    let model := createModel wafers_list input.machines params
    let results := solver model
    match extractResults results with
    | .error e => .error e
    | .ok _ => .ok (milpCreateFinalScheduleObject wafers_list input.machines model results)

/-! ## Concrete example inputs -/

/-- A wafer whose recipe is in no machine's table, for the infeasible case. -/
def orphanWafer : Wafer := mkWafer "w1" Priority.red "A"

/-- A machine that cannot process recipe "A". -/
def recipeBMachine : Machine := mkMachine "M1" [("B", 30)]

/-- Infeasible input: the only wafer has zero compatible machines. -/
def orphanInput : InputData := ⟨[orphanWafer], [recipeBMachine]⟩

/-- A red wafer with recipe "A". -/
def redWafer : Wafer := mkWafer "w1" Priority.red "A"

/-- A machine processing recipe "A" in 10 minutes. -/
def recipeAMachine : Machine := mkMachine "M1" [("A", 10)]

/-- Feasible one-wafer input. -/
def smallInput : InputData := ⟨[redWafer], [recipeAMachine]⟩

/-! ## Helper lemmas -/

/-- When one simulation iteration leaves the state unchanged without reaching
the DONE state, the scheduling loop never terminates, whatever the fuel. -/
theorem scheduleLoop_none_of_fixed (evalFn : List Machine → Wafer → Evaluation)
    (st : SimState) (h : runSimulation evalFn st = (st, false)) :
    ∀ fuel : Nat, scheduleLoop evalFn fuel st = none := by
  intro fuel
  induction fuel with
  | zero => rfl
  | succ n ih => rw [scheduleLoop, h]; exact ih

/-! ## C1 -/

/-- C1: the spec requires that a wafer with zero compatible machines makes the
greedy schedulers detect the condition and raise an infeasibility error instead
of looping forever.  The code has no such guard: on `orphanInput` (one wafer
with recipe "A", one machine that only processes recipe "B") one simulation
iteration leaves the state unchanged without reaching DONE, so the `while` loop
never terminates, for either greedy policy, whatever fuel it is given. -/
theorem c1_greedy_loops_forever_on_incompatible_wafer :
    (∀ fuel : Nat, legacyScheduleRun fuel orphanInput = none) ∧
    (∀ fuel : Nat, betterScheduleRun fuel orphanInput = none) := by
  constructor
  · intro fuel
    have h : runSimulation evaluateWaferMachineAssignment (initState orphanInput) =
        (initState orphanInput, false) := by decide
    unfold legacyScheduleRun
    rw [scheduleLoop_none_of_fixed _ _ h fuel]
    rfl
  · intro fuel
    have h : runSimulation betterEvaluateAssignment (initState orphanInput) =
        (initState orphanInput, false) := by decide
    unfold betterScheduleRun
    rw [scheduleLoop_none_of_fixed _ _ h fuel]
    rfl

/-! ## C2 -/

/-- A schedule in which the single input wafer appears in two decisions. -/
def duplicatedSchedule : Schedule :=
  ⟨[⟨redWafer, recipeAMachine, 0, 10⟩, ⟨redWafer, recipeAMachine, 10, 20⟩]⟩

/-- C2 counterexample: the completeness validator answers `true` on a schedule
in which the input wafer appears in two decisions, so `validate` is not
equivalent to "every input wafer appears in exactly one decision". -/
theorem c2_counterexample_duplicate_wafer_accepted :
    ¬ (allWafersHaveBeenScheduledValidate smallInput duplicatedSchedule = true ↔
       ∀ w ∈ smallInput.wafers,
         (duplicatedSchedule.dispatch_decisions.countP (fun d => d.wafer == w)) = 1) := by
  decide

/-- C2 amended: `AllWafersHaveBeenScheduled.validate` returns `true` if and
only if every input wafer appears as the wafer of at least one dispatch
decision; a wafer referenced by two or more decisions is not detected. -/
theorem c2_amended_validator_checks_membership (input : InputData) (schedule : Schedule) :
    allWafersHaveBeenScheduledValidate input schedule = true ↔
      ∀ w ∈ input.wafers, ∃ d ∈ schedule.dispatch_decisions, d.wafer = w := by
  simp only [allWafersHaveBeenScheduledValidate, List.all_eq_true, decide_eq_true_eq,
    List.mem_map]

/-! ## C10 -/

/-- A non-empty schedule in which every machine carries one single decision. -/
def singletonSchedule : Schedule := ⟨[⟨redWafer, recipeAMachine, 0, 10⟩]⟩

/-- C10: on a non-empty schedule in which every machine has at most one
decision, the non-overlap validator computes `min` of an empty list of
booleans, which raises (`none`), so the checker produces no complete
pass/fail report. -/
theorem c10_validator_raises_on_singleton_groups :
    singletonSchedule.dispatch_decisions ≠ [] ∧
    (extractIntervalsData singletonSchedule).all (fun g => g.2.length ≤ 1) = true ∧
    noOverlapsOnSameMachineValidate singletonSchedule = none ∧
    scheduleCheck smallInput singletonSchedule = none := by
  decide

/-- The identity data of a machine: its name and processing-time table, the
fields never touched by a scheduler run. -/
def machineIdentity (m : Machine) : String × List (RecipeId × ℤ) :=
  (m.name, m.processing_time_by_recipe)

/-! ## C9 -/

/-- A machine as a previous greedy run leaves it: still busy until minute 5. -/
def dirtyMachine : Machine :=
  { name := "M1", processing_time_by_recipe := [("A", 10)], is_busy := true, free_time := 5 }

/-- C9 counterexample: the scheduler constructor does not reset machine runtime
fields (only `Machine.__init__` does).  Running the greedy scheduler over a
machine object left busy by an earlier run produces a different schedule than
running it over a freshly constructed machine with the same identity data, so a
run over the same `Machine` objects is not independent of earlier runs. -/
theorem c9_counterexample_no_reset_before_run :
    (initState ⟨[redWafer], [dirtyMachine]⟩).machines_list = [dirtyMachine] ∧
    machineIdentity dirtyMachine = machineIdentity (resetMachine dirtyMachine) ∧
    legacyScheduleRun 4 ⟨[redWafer], [dirtyMachine]⟩ ≠
      legacyScheduleRun 4 ⟨[redWafer], [resetMachine dirtyMachine]⟩ := by
  decide

/-- C9 amended: runtime scheduling fields are reset by `Machine.__init__` at
construction time (not by the scheduler), so a greedy run is independent of any
earlier run only when it is given freshly constructed `Machine` objects: any
mutation that touches only the runtime fields is erased by reconstruction and
cannot influence the run. -/
theorem c9_amended_reset_at_construction_only (n : String) (tbl : List (RecipeId × ℤ))
    (f : Machine → Machine)
    (hf : ∀ m, (f m).name = m.name ∧ (f m).processing_time_by_recipe = m.processing_time_by_recipe) :
    ((mkMachine n tbl).is_busy = false ∧ (mkMachine n tbl).free_time = 0) ∧
    ∀ (fuel : Nat) (ws : List Wafer) (ms : List Machine),
      legacyScheduleRun fuel ⟨ws, ms.map (fun m => resetMachine (f m))⟩ =
        legacyScheduleRun fuel ⟨ws, ms.map resetMachine⟩ ∧
      betterScheduleRun fuel ⟨ws, ms.map (fun m => resetMachine (f m))⟩ =
        betterScheduleRun fuel ⟨ws, ms.map resetMachine⟩ := by
  have hmap : ∀ ms : List Machine,
      ms.map (fun m => resetMachine (f m)) = ms.map resetMachine := by
    intro ms
    apply List.map_congr_left
    intro m _
    unfold resetMachine
    rw [(hf m).1, (hf m).2]
  refine ⟨⟨rfl, rfl⟩, ?_⟩
  intro fuel ws ms
  rw [hmap]
  exact ⟨rfl, rfl⟩

/-- Witness for the C9 amended theorem: a concrete runtime-only mutation
(leaving a machine busy until minute 99) has no effect on a run over freshly
reconstructed machines. -/
theorem c9_amended_witness :
    legacyScheduleRun 3
        ⟨[redWafer], [dirtyMachine].map (fun m => resetMachine ({ m with is_busy := true, free_time := 99 }))⟩ =
      legacyScheduleRun 3 ⟨[redWafer], [dirtyMachine].map resetMachine⟩ :=
  ((c9_amended_reset_at_construction_only "M1" []
    (fun m => { m with is_busy := true, free_time := 99 })
    (fun _ => ⟨rfl, rfl⟩)).2 3 [redWafer] [dirtyMachine]).1

/-! ## C8 -/

/-- C8: the greedy schedulers are deterministic functions of the input data —
two runs over the same wafer list and over independently constructed machine
lists that agree on identity data (as fresh copies of identical inputs do)
produce identical schedules, for either policy. -/
theorem c8_greedy_determinism (fuel : Nat) (ws : List Wafer) (ms1 ms2 : List Machine)
    (h : ms1.map machineIdentity = ms2.map machineIdentity) :
    legacyScheduleRun fuel ⟨ws, ms1.map resetMachine⟩ =
      legacyScheduleRun fuel ⟨ws, ms2.map resetMachine⟩ ∧
    betterScheduleRun fuel ⟨ws, ms1.map resetMachine⟩ =
      betterScheduleRun fuel ⟨ws, ms2.map resetMachine⟩ := by
  have hrm : ms1.map resetMachine = ms2.map resetMachine := by
    have h1 : ms1.map resetMachine = (ms1.map machineIdentity).map (fun p => mkMachine p.1 p.2) := by
      rw [List.map_map]; rfl
    have h2 : ms2.map resetMachine = (ms2.map machineIdentity).map (fun p => mkMachine p.1 p.2) := by
      rw [List.map_map]; rfl
    rw [h1, h2, h]
  rw [hrm]
  exact ⟨rfl, rfl⟩

/-- Witness for C8: two machine objects in different runtime states but with
the same identity data; fresh copies of both yield the same schedule. -/
theorem c8_witness :
    legacyScheduleRun 3 ⟨[redWafer], [dirtyMachine].map resetMachine⟩ =
      legacyScheduleRun 3 ⟨[redWafer], [recipeAMachine].map resetMachine⟩ :=
  (c8_greedy_determinism 3 [redWafer] [dirtyMachine] [recipeAMachine] (by decide)).1

/-! ## C5 -/

/-- The message raised by `_define_objective_function_weights`. -/
def weightRangeMessage : String := "pwct_weight parameter must be in [0, 1] range"

/-- The error raised by `_extract_results` never coincides with the weight
range error. -/
theorem extractResults_error_ne_range (results : SolverResult) (s : String)
    (h : extractResults results = .error s) : s ≠ weightRangeMessage := by
  rcases results with ⟨st, tc, ev, av⟩
  unfold extractResults at h
  split at h
  · exact Except.noConfusion h
  · injection h with h'
    subst h'
    cases st <;> cases tc <;>
      simp only [solverStatusName, terminationConditionName, weightRangeMessage] <;>
      decide

/-- C5: `MILPScheduler.schedule` validates the objective weight while building
the parameter placeholder, before the optimization model is constructed and
before the solver is consulted: for `α` outside [0, 1] the run ends in the
range error (whatever the solver would do), while for `α ∈ [0, 1]` the weights
are accepted as `(α, 1 − α)` — in particular the makespan weight is `1 − α` —
and the range error is never raised. -/
theorem c5_alpha_range_validation (input : InputData) (alpha : ℚ)
    (solver : MipModel → SolverResult) :
    (alpha < 0 ∨ 1 < alpha →
      createParametersPlaceholder (initWafersList input.wafers) input.machines alpha =
        .error weightRangeMessage ∧
      milpScheduleRun input alpha solver = .error weightRangeMessage) ∧
    (0 ≤ alpha → alpha ≤ 1 →
      defineObjectiveFunctionWeights alpha = .ok (alpha, 1 - alpha) ∧
      ∃ params,
        createParametersPlaceholder (initWafersList input.wafers) input.machines alpha =
          .ok params ∧
        params.pwct_weight = alpha ∧ params.makespan_weight = 1 - alpha ∧
        milpScheduleRun input alpha solver ≠ .error weightRangeMessage) := by
  constructor
  · intro hout
    have hw : defineObjectiveFunctionWeights alpha = .error weightRangeMessage := by
      unfold defineObjectiveFunctionWeights
      rw [if_pos]
      · rfl
      · rcases hout with h | h
        · exact Or.inl h
        · exact Or.inr h
    have hp : createParametersPlaceholder (initWafersList input.wafers) input.machines alpha =
        .error weightRangeMessage := by
      unfold createParametersPlaceholder
      rw [hw]
    refine ⟨hp, ?_⟩
    unfold milpScheduleRun
    simp only [hp]
  · intro h0 h1
    have hnot : ¬ (alpha < 0 ∨ alpha > 1) := by
      rintro (h | h)
      · exact absurd h0 (not_le.mpr h)
      · exact absurd h1 (not_le.mpr h)
    have hw : defineObjectiveFunctionWeights alpha = .ok (alpha, 1 - alpha) := by
      unfold defineObjectiveFunctionWeights
      rw [if_neg hnot]
    refine ⟨hw, ?_⟩
    have hp : createParametersPlaceholder (initWafersList input.wafers) input.machines alpha =
        .ok ⟨definePriorityNumberParameter (initWafersList input.wafers),
             defineCompatibleAssignmentsParameter (initWafersList input.wafers) input.machines,
             defineProcessingTimesParameter (initWafersList input.wafers) input.machines,
             defineProcessingTimeBigM
               (defineProcessingTimesParameter (initWafersList input.wafers) input.machines),
             alpha, 1 - alpha⟩ := by
      unfold createParametersPlaceholder
      rw [hw]
    refine ⟨_, hp, rfl, rfl, ?_⟩
    intro hcontra
    unfold milpScheduleRun at hcontra
    simp only [hp] at hcontra
    rcases hext : extractResults (solver (createModel (initWafersList input.wafers)
        input.machines _)) with e | u
    · rw [hext] at hcontra
      simp only [Except.error.injEq] at hcontra
      exact extractResults_error_ne_range _ _ hext hcontra
    · rw [hext] at hcontra
      simp at hcontra

/-- Witness for C5: `α = 3/2` is rejected with the range error for an
arbitrary concrete solver, and `α = 1` is accepted with makespan weight 0. -/
theorem c5_witness :
    (createParametersPlaceholder (initWafersList smallInput.wafers) smallInput.machines (3 / 2) =
        .error weightRangeMessage ∧
      milpScheduleRun smallInput (3 / 2) (fun _ => ⟨.ok, .optimal, fun _ => 10, fun _ _ => 1⟩) =
        .error weightRangeMessage) ∧
    (defineObjectiveFunctionWeights 1 = .ok (1, 1 - 1) ∧
      ∃ params,
        createParametersPlaceholder (initWafersList smallInput.wafers) smallInput.machines 1 =
          .ok params ∧
        params.pwct_weight = 1 ∧ params.makespan_weight = 1 - 1 ∧
        milpScheduleRun smallInput 1 (fun _ => ⟨.ok, .optimal, fun _ => 10, fun _ _ => 1⟩) ≠
          .error weightRangeMessage) :=
  ⟨(c5_alpha_range_validation smallInput (3 / 2) _).1 (Or.inr (by norm_num)),
   (c5_alpha_range_validation smallInput 1 _).2 (by norm_num) (by norm_num)⟩

/-! ## C7 -/

instance : IsTotal Wafer waferRel where
  total a b := by
    rcases lt_trichotomy (-a.priority_number) (-b.priority_number) with h | h | h
    · exact Or.inl (Or.inl h)
    · rcases le_total a.name b.name with hn | hn
      · exact Or.inl (Or.inr ⟨h, hn⟩)
      · exact Or.inr (Or.inr ⟨h.symm, hn⟩)
    · exact Or.inr (Or.inl h)

instance : IsTrans Wafer waferRel where
  trans a b c hab hbc := by
    rcases hab with h1 | ⟨e1, n1⟩
    · rcases hbc with h2 | ⟨e2, n2⟩
      · exact Or.inl (h1.trans h2)
      · exact Or.inl (h1.trans_eq e2)
    · rcases hbc with h2 | ⟨e2, n2⟩
      · exact Or.inl (e1.trans_lt h2)
      · exact Or.inr ⟨e1.trans e2, n1.trans n2⟩

/-- C7: the priority weights are red = 1, orange = 1/2, yellow = 1/10, every
wafer constructed by `Wafer.__init__` carries the weight of its priority, the
greedy schedulers process the list returned by `_initialize_wafers_list`, and
in that list any two wafers with distinct (weight, name) pairs are ordered by
descending priority weight with ties broken by ascending name. -/
theorem c7_global_wafer_ordering (ws : List Wafer) :
    (PRIORITY_WEIGHTS Priority.red = 1 ∧ PRIORITY_WEIGHTS Priority.orange = 1 / 2 ∧
      PRIORITY_WEIGHTS Priority.yellow = 1 / 10) ∧
    (∀ (n : String) (p : Priority) (r : RecipeId),
      (mkWafer n p r).priority_number = PRIORITY_WEIGHTS p) ∧
    (∀ input : InputData, (initState input).wafers_list =
      updateWafersCompatibleAssignmentsByName (initWafersList input.wafers) input.machines) ∧
    (initWafersList ws).Pairwise (fun a b =>
      (a.priority_number, a.name) ≠ (b.priority_number, b.name) →
        b.priority_number < a.priority_number ∨
          (a.priority_number = b.priority_number ∧ a.name < b.name)) := by
  refine ⟨⟨rfl, rfl, rfl⟩, fun _ _ _ => rfl, fun _ => rfl, ?_⟩
  have hs := List.sorted_insertionSort waferRel ws
  unfold initWafersList
  refine hs.imp ?_
  intro a b hab
  intro hne
  rcases hab with h | ⟨he, hle⟩
  · exact Or.inl (neg_lt_neg_iff.mp h)
  · have hpe : a.priority_number = b.priority_number := neg_inj.mp he
    refine Or.inr ⟨hpe, lt_of_le_of_ne hle ?_⟩
    intro hn
    exact hne (by rw [hpe, hn])

/-! ## C3 -/

/-- The spec's reading of the non-overlap rule, stated from its words for
comparison with the code: group decisions by machine, sort each group by start,
check `end[i] ≤ start[i+1]` on consecutive pairs, and check `end ≥ start` for
every decision. -/
def specNonOverlapSorted (schedule : Schedule) : Bool :=
  (extractIntervalsData schedule).all (fun g =>
    (consecutiveBools (List.insertionSort (fun x y : ℤ × ℤ => x.1 ≤ y.1) g.2)).all
      (fun x => x)) &&
  schedule.dispatch_decisions.all (fun d => decide (d.start ≤ d.stop))

/-- Two decisions on one machine listed in decreasing start order; sorted by
start they do not overlap. -/
def unsortedSchedule : Schedule :=
  ⟨[⟨redWafer, recipeAMachine, 10, 20⟩, ⟨redWafer, recipeAMachine, 0, 10⟩]⟩

/-- C3 counterexample: `NoOverlapsOnSameMachine.validate` never sorts the
per-machine groups by start — it compares consecutive pairs in the order the
decisions appear.  On a schedule whose decisions are listed in decreasing
start order it answers `false` although the sorted-order criterion of the
claim holds, so the claimed equivalence fails. -/
theorem c3_counterexample_order_sensitivity :
    specNonOverlapSorted unsortedSchedule = true ∧
    noOverlapsOnSameMachineValidate unsortedSchedule = some false := by
  decide

/-- Python `min` over a non-empty list of booleans is their conjunction. -/
theorem foldl_and_eq_all (bs : List Bool) (b0 : Bool) :
    bs.foldl (fun x y => x && y) b0 = (b0 :: bs).all (fun x => x) := by
  induction bs generalizing b0 with
  | nil => simp
  | cons c cs ih =>
    rw [List.foldl_cons, ih]
    simp [Bool.and_assoc]

/-- The booleans collected for one machine group are all true exactly when the
group's intervals, in their given order, chain by `end ≤ next start`. -/
theorem consecutiveBools_all_iff_chain (l : List (ℤ × ℤ)) :
    (∀ x ∈ consecutiveBools l, x = true) ↔
      List.Chain' (fun x y : ℤ × ℤ => x.2 ≤ y.1) l := by
  induction l with
  | nil => simp [consecutiveBools]
  | cons a t ih =>
    cases t with
    | nil => simp [consecutiveBools]
    | cons b t' =>
      rw [consecutiveBools, List.chain'_cons, ← ih]
      simp only [List.mem_cons, forall_eq_or_imp, decide_eq_true_eq]

/-- C3 amended: whenever `NoOverlapsOnSameMachine.validate` returns a verdict
at all (it raises when no machine has two decisions), the verdict is `true` iff
every decision satisfies `end ≥ start` and, for every machine group, the
consecutive pairs **in the order the decisions were given** (not sorted by
start) satisfy `end[i] ≤ start[i+1]`. -/
theorem c3_amended_verdict_in_given_order (schedule : Schedule) (b : Bool)
    (h : noOverlapsOnSameMachineValidate schedule = some b) :
    b = true ↔
      ((∀ d ∈ schedule.dispatch_decisions, d.start ≤ d.stop) ∧
       ∀ g ∈ extractIntervalsData schedule,
         List.Chain' (fun x y : ℤ × ℤ => x.2 ≤ y.1) g.2) := by
  unfold noOverlapsOnSameMachineValidate at h
  rcases hov : evaluateOverlapping (extractIntervalsData schedule) with _ | ov
  · simp only [hov] at h
    exact Option.noConfusion h
  · simp only [hov, Option.some.injEq] at h
    subst h
    unfold evaluateOverlapping at hov
    rcases hbl : (extractIntervalsData schedule).flatMap (fun g => consecutiveBools g.2) with
      _ | ⟨b0, bs⟩
    · simp only [hbl] at hov
      exact Option.noConfusion hov
    · simp only [hbl, Option.some.injEq] at hov
      subst hov
      rw [foldl_and_eq_all, ← hbl]
      simp only [Bool.and_eq_true, List.all_eq_true, decide_eq_true_eq, List.mem_flatMap,
        forall_exists_index, and_imp]
      constructor
      · rintro ⟨hseq, hall⟩
        refine ⟨fun d hd => by simpa [sub_nonneg] using hseq d hd, ?_⟩
        intro g hg
        rw [← consecutiveBools_all_iff_chain]
        intro x hx
        exact hall x g hg hx
      · rintro ⟨hseq, hall⟩
        refine ⟨fun d hd => by simpa [sub_nonneg] using hseq d hd, ?_⟩
        intro x g hg hx
        exact (consecutiveBools_all_iff_chain g.2).mpr (hall g hg) x hx

/-- Witness for the C3 amended theorem: a two-decision schedule on one machine,
listed in increasing start order, for which the validator answers `true`. -/
theorem c3_amended_witness :
    true = true ↔
      ((∀ d ∈ duplicatedSchedule.dispatch_decisions, d.start ≤ d.stop) ∧
       ∀ g ∈ extractIntervalsData duplicatedSchedule,
         List.Chain' (fun x y : ℤ × ℤ => x.2 ≤ y.1) g.2) :=
  c3_amended_verdict_in_given_order duplicatedSchedule true (by decide)

/-! ## C6 -/

/-- The first element of a list attaining the minimum of the key `k`
(`none` on the empty list): the reference description of what a stable sort
by `k` puts in front. -/
def firstMinBy {α : Type} (k : α → ℤ) : List α → Option α
  | [] => none
  | a :: l =>
    match firstMinBy k l with
    | none => some a
    | some m => some (if k a ≤ k m then a else m)

theorem firstMinBy_eq_none_iff {α : Type} (k : α → ℤ) (l : List α) :
    firstMinBy k l = none ↔ l = [] := by
  cases l with
  | nil => simp [firstMinBy]
  | cons a t =>
    unfold firstMinBy
    rcases firstMinBy k t with _ | m <;> simp

/-- The head of a stable sort by key `k` is the first element attaining the
minimum of `k`. -/
theorem head?_insertionSort_firstMinBy {α : Type} (k : α → ℤ) (l : List α) :
    (List.insertionSort (fun a b => k a ≤ k b) l).head? = firstMinBy k l := by
  induction l with
  | nil => rfl
  | cons a t ih =>
    show (List.orderedInsert _ a (List.insertionSort _ t)).head? = _
    rcases hs : List.insertionSort (fun a b => k a ≤ k b) t with _ | ⟨b, s'⟩
    · rw [hs] at ih
      unfold firstMinBy
      rw [← ih]
      rfl
    · rw [hs] at ih
      unfold firstMinBy
      rw [← ih]
      simp only [List.head?_cons]
      by_cases hab : k a ≤ k b
      · rw [List.orderedInsert, if_pos hab, List.head?_cons, if_pos hab]
      · rw [List.orderedInsert, if_neg hab, List.head?_cons, if_neg hab]

/-- `firstMinBy` returns a minimiser that is preceded only by elements with
strictly larger keys. -/
theorem firstMinBy_spec {α : Type} (k : α → ℤ) :
    ∀ (l : List α) (m : α), firstMinBy k l = some m →
      (∀ x ∈ l, k m ≤ k x) ∧ ∃ l₁ l₂, l = l₁ ++ m :: l₂ ∧ ∀ b ∈ l₁, k m < k b := by
  intro l
  induction l with
  | nil => exact fun m h => Option.noConfusion h
  | cons a t ih =>
    intro m h
    unfold firstMinBy at h
    rcases ht : firstMinBy k t with _ | m'
    · rw [ht] at h
      injection h with h
      subst h
      have htn : t = [] := (firstMinBy_eq_none_iff k t).mp ht
      subst htn
      exact ⟨by simp, [], [], rfl, by simp⟩
    · rw [ht] at h
      injection h with h
      obtain ⟨hmin, l₁, l₂, hsplit, hbefore⟩ := ih m' ht
      by_cases hab : k a ≤ k m'
      · rw [if_pos hab] at h
        refine ⟨?_, [], t, by rw [← h]; rfl, by simp⟩
        intro x hx
        rw [← h]
        rcases List.mem_cons.mp hx with hx | hx
        · exact hx ▸ le_refl _
        · exact hab.trans (hmin x hx)
      · rw [if_neg hab] at h
        have hma : k m' < k a := not_le.mp hab
        refine ⟨?_, a :: l₁, l₂, ?_, ?_⟩
        · intro x hx
          rw [← h]
          rcases List.mem_cons.mp hx with hx | hx
          · exact hx ▸ hma.le
          · exact hmin x hx
        · rw [← h, hsplit]
          rfl
        · intro b hb
          rw [← h]
          rcases List.mem_cons.mp hb with hb | hb
          · exact hb ▸ hma
          · exact hbefore b hb

/-- C6: whenever the free compatible machine list of a wafer is non-empty, the
best-fit policy selects the wafer and claims a machine whose processing time
for the wafer's recipe is minimal among the free compatible machines, and every
free compatible machine occurring earlier in machine-list order has a strictly
larger processing time — ties go to the first machine encountered. -/
theorem c6_better_claims_first_minimum (machines : List Machine) (current_wafer : Wafer)
    (h : machines.filter
      (fun m => current_wafer.compatible_machines.contains m.name && !m.is_busy) ≠ []) :
    ∃ chosen l₁ l₂,
      betterEvaluateAssignment machines current_wafer =
        ⟨true, some current_wafer.name, some chosen.name⟩ ∧
      machines.filter
          (fun m => current_wafer.compatible_machines.contains m.name && !m.is_busy) =
        l₁ ++ chosen :: l₂ ∧
      (∀ x ∈ machines.filter
          (fun m => current_wafer.compatible_machines.contains m.name && !m.is_busy),
        processingTimeKey current_wafer chosen ≤ processingTimeKey current_wafer x) ∧
      (∀ b ∈ l₁, processingTimeKey current_wafer chosen < processingTimeKey current_wafer b) := by
  have hh := head?_insertionSort_firstMinBy (processingTimeKey current_wafer)
    (machines.filter
      (fun m => current_wafer.compatible_machines.contains m.name && !m.is_busy))
  rcases hfm : firstMinBy (processingTimeKey current_wafer)
      (machines.filter
        (fun m => current_wafer.compatible_machines.contains m.name && !m.is_busy)) with
    _ | chosen
  · exact absurd ((firstMinBy_eq_none_iff _ _).mp hfm) h
  · rw [hfm] at hh
    obtain ⟨hmin, l₁, l₂, hsplit, hbefore⟩ := firstMinBy_spec _ _ chosen hfm
    refine ⟨chosen, l₁, l₂, ?_, hsplit, hmin, hbefore⟩
    unfold betterEvaluateAssignment
    simp only [hh]

/-- A wafer compatible with three machines. -/
def tieWafer : Wafer :=
  { mkWafer "w" Priority.red "A" with compatible_machines := ["M1", "M2", "M3"] }

/-- Three free machines: M1 slower, M2 and M3 tied at the minimum. -/
def tieMachines : List Machine :=
  [mkMachine "M1" [("A", 20)], mkMachine "M2" [("A", 10)], mkMachine "M3" [("A", 10)]]

/-- Witness for C6 on a concrete tie: M2 and M3 both take 10 minutes and M2
comes first in machine-list order. -/
theorem c6_witness :
    ∃ chosen l₁ l₂,
      betterEvaluateAssignment tieMachines tieWafer =
        ⟨true, some tieWafer.name, some chosen.name⟩ ∧
      tieMachines.filter
          (fun m => tieWafer.compatible_machines.contains m.name && !m.is_busy) =
        l₁ ++ chosen :: l₂ ∧
      (∀ x ∈ tieMachines.filter
          (fun m => tieWafer.compatible_machines.contains m.name && !m.is_busy),
        processingTimeKey tieWafer chosen ≤ processingTimeKey tieWafer x) ∧
      (∀ b ∈ l₁, processingTimeKey tieWafer chosen < processingTimeKey tieWafer b) :=
  c6_better_claims_first_minimum tieMachines tieWafer (by decide)

/-! ## C4 -/

theorem setBusyFirst_map_identity (ms : List Machine) (n : String) (t : ℤ) :
    (setBusyFirst ms n t).map machineIdentity = ms.map machineIdentity := by
  induction ms with
  | nil => rfl
  | cons m ms ih =>
    unfold setBusyFirst
    by_cases h : m.name == n
    · rw [if_pos h]
      rfl
    · rw [if_neg h, List.map_cons, List.map_cons, ih]

/-- Two machine lists with the same identity data agree, up to identity data,
on every lookup by name. -/
theorem find?_name_of_identity_eq (ms ms' : List Machine)
    (h : ms.map machineIdentity = ms'.map machineIdentity) (n : String) :
    (ms.find? (fun m => m.name == n)).map machineIdentity =
      (ms'.find? (fun m => m.name == n)).map machineIdentity := by
  induction ms generalizing ms' with
  | nil =>
    cases ms' with
    | nil => rfl
    | cons m' t' => exact List.noConfusion h
  | cons m t ih =>
    cases ms' with
    | nil => exact List.noConfusion h
    | cons m' t' =>
      injection h with h1 h2
      have hn : m.name = m'.name := congrArg Prod.fst h1
      by_cases hp : m.name == n
      · have hp' : m'.name == n := by rw [← hn]; exact hp
        rw [@List.find?_cons_of_pos Machine (fun x => x.name == n) m t hp,
          @List.find?_cons_of_pos Machine (fun x => x.name == n) m' t' hp']
        simp only [Option.map_some']
        rw [h1]
      · have hp' : ¬ (m'.name == n) := by rw [← hn]; exact hp
        rw [@List.find?_cons_of_neg Machine (fun x => x.name == n) m t hp,
          @List.find?_cons_of_neg Machine (fun x => x.name == n) m' t' hp']
        exact ih t' h2

/-- The machine-duration invariant of a greedy run: every entry of the schedule
dictionary names a wafer and a machine whose (first-match) lookups yield a
processing time equal to the entry's end minus start. -/
def SchedInv (st : SimState) : Prop :=
  ∀ e ∈ st.scheduled,
    ∃ w mi,
      st.wafers_list.find? (fun w' => w'.name == e.1) = some w ∧
      (st.machines_list.find? (fun m' => m'.name == e.2.1)).map machineIdentity = some mi ∧
      lookupRecipe mi.2 w.recipe = some (e.2.2.2 - e.2.2.1)

theorem schedInv_updateAssignment (st : SimState) (ev : Evaluation)
    (h : SchedInv st) : SchedInv (updateAssignment st ev) := by
  rcases ev with ⟨sel, wn, mn⟩
  rcases wn with _ | wafer_name
  · exact h
  rcases mn with _ | machine_name
  · exact h
  rcases hfw : st.wafers_list.find? (fun w => w.name == wafer_name) with _ | wafer <;>
    rcases hfm : st.machines_list.find? (fun m => m.name == machine_name) with _ | machine <;>
    unfold updateAssignment <;>
    simp only [hfw, hfm]
  · exact h
  · exact h
  · exact h
  rcases hlk : lookupRecipe machine.processing_time_by_recipe wafer.recipe with _ | pt <;>
    simp only [hlk]
  · exact h
  intro e he
  simp only [List.mem_append, List.mem_singleton] at he
  rcases he with he | he
  · obtain ⟨w, mi, hw, hm, hl⟩ := h e he
    refine ⟨w, mi, hw, ?_, hl⟩
    rw [← hm]
    exact find?_name_of_identity_eq _ _ (setBusyFirst_map_identity _ _ _) _
  · subst he
    refine ⟨wafer, machineIdentity machine, hfw, ?_, ?_⟩
    · rw [find?_name_of_identity_eq _ st.machines_list
        (setBusyFirst_map_identity _ _ _) machine_name, hfm]
      rfl
    · simp only [machineIdentity]
      rw [hlk]
      congr 1
      omega

theorem schedInv_updateRemainingWafers (evalFn : List Machine → Wafer → Evaluation)
    (st : SimState) (h : SchedInv st) : SchedInv (updateRemainingWafers evalFn st) := by
  unfold updateRemainingWafers
  generalize (st.wafers_list.filter
    (fun w => !(st.scheduled.any (fun e => e.1 == w.name)))) = ws
  induction ws generalizing st with
  | nil => exact h
  | cons w ws ih =>
    rw [List.foldl_cons]
    apply ih
    by_cases hsel : (evalFn st.machines_list w).is_wafer_selected
    · rw [if_pos hsel]
      exact schedInv_updateAssignment st _ h
    · rw [if_neg hsel]
      exact h

theorem schedInv_updateBusyMachines (st : SimState) (h : SchedInv st) :
    SchedInv (updateBusyMachines st) := by
  unfold updateBusyMachines
  rcases hb : (st.machines_list.filter (fun m => m.is_busy)).map (fun m => m.free_time) with
    _ | ⟨t, ts⟩ <;>
    simp only [hb]
  · exact h
  · intro e he
    obtain ⟨w, mi, hw, hm, hl⟩ := h e he
    refine ⟨w, mi, hw, ?_, hl⟩
    rw [← hm]
    apply find?_name_of_identity_eq
    rw [List.map_map]
    apply List.map_congr_left
    intro m _
    by_cases hf : m.free_time = List.foldl min t ts
    · simp [machineIdentity, hf]
    · simp [machineIdentity, hf]

theorem schedInv_scheduleLoop (evalFn : List Machine → Wafer → Evaluation) :
    ∀ (fuel : Nat) (st st' : SimState), SchedInv st →
      scheduleLoop evalFn fuel st = some st' → SchedInv st' := by
  intro fuel
  induction fuel with
  | zero => exact fun st st' _ hc => Option.noConfusion hc
  | succ n ih =>
    intro st st' hinv hrun
    rw [scheduleLoop] at hrun
    have hstep : SchedInv (updateBusyMachines (updateRemainingWafers evalFn st)) :=
      schedInv_updateBusyMachines _ (schedInv_updateRemainingWafers evalFn st hinv)
    rcases hterm : runSimulation evalFn st with ⟨st2, done⟩
    have hst2 : st2 = updateBusyMachines (updateRemainingWafers evalFn st) := by
      have := congrArg Prod.fst hterm
      simpa [runSimulation] using this.symm
    rw [hterm] at hrun
    cases done with
    | true =>
      simp only [Option.some.injEq] at hrun
      subst hrun
      rw [hst2]
      exact hstep
    | false =>
      exact ih st2 st' (hst2 ▸ hstep) hrun

theorem schedInv_initState (input : InputData) : SchedInv (initState input) := by
  intro e he
  exact absurd he (List.not_mem_nil e)

/-- From the invariant: every decision of the final schedule object records
exactly the machine's processing time for the wafer's recipe. -/
theorem createFinal_duration (st : SimState) (hinv : SchedInv st) :
    ∀ d ∈ (createFinalScheduleObject st).dispatch_decisions,
      lookupRecipe d.machine.processing_time_by_recipe d.wafer.recipe =
        some (d.stop - d.start) := by
  intro d hd
  unfold createFinalScheduleObject at hd
  rw [List.mem_insertionSort, List.mem_filterMap] at hd
  obtain ⟨e, he, hmatch⟩ := hd
  rcases hfw : st.wafers_list.find? (fun w => w.name == e.1) with _ | wafer <;>
    rcases hfm : st.machines_list.find? (fun m => m.name == e.2.1) with _ | machine <;>
    simp only [hfw, hfm] at hmatch
  all_goals try exact Option.noConfusion hmatch
  injection hmatch with hmatch
  subst hmatch
  obtain ⟨w, mi, hw, hm, hl⟩ := hinv e he
  rw [hfw] at hw
  injection hw with hw
  rw [hfm] at hm
  simp only [Option.map_some', Option.some.injEq] at hm
  have htbl : machine.processing_time_by_recipe = mi.2 := congrArg Prod.snd hm
  simp only
  rw [htbl, hw, hl]
  congr 1
  omega

/-- Any greedy run (either evaluation policy) only emits decisions whose
duration is exactly the machine's processing time for the wafer's recipe. -/
theorem greedy_run_duration (evalFn : List Machine → Wafer → Evaluation)
    (fuel : Nat) (input : InputData) (sched : Schedule)
    (h : (scheduleLoop evalFn fuel (initState input)).map createFinalScheduleObject =
      some sched) :
    ∀ d ∈ sched.dispatch_decisions,
      lookupRecipe d.machine.processing_time_by_recipe d.wafer.recipe =
        some (d.stop - d.start) := by
  rcases Option.map_eq_some'.mp h with ⟨st', hloop, hcreate⟩
  subst hcreate
  exact createFinal_duration st'
    (schedInv_scheduleLoop evalFn fuel _ st' (schedInv_initState input) hloop)

/-- Every entry of the processing-times parameter dictionary comes from some
compatible wafer-machine pair and records that machine's table entry. -/
theorem lookupPT_mem (wafers : List Wafer) (machines : List Machine) (wn mn : String) (t : ℤ)
    (h : lookupProcessingTime (defineProcessingTimesParameter wafers machines) wn mn =
      some t) :
    ∃ w ∈ wafers, ∃ m ∈ machines, w.name = wn ∧ m.name = mn ∧
      lookupRecipe m.processing_time_by_recipe w.recipe = some t := by
  unfold lookupProcessingTime at h
  rcases Option.map_eq_some'.mp h with ⟨entry, hfind, hsnd⟩
  have hmem := List.mem_of_find?_eq_some hfind
  have hpred := List.find?_some hfind
  simp only [beq_iff_eq] at hpred
  unfold defineProcessingTimesParameter at hmem
  rw [List.mem_flatMap] at hmem
  obtain ⟨w, hwmem, hentry⟩ := hmem
  rw [List.mem_filterMap] at hentry
  obtain ⟨m, hmmem, hfm⟩ := hentry
  have hmms : m ∈ machines := (List.mem_filter.mp hmmem).1
  rcases Option.map_eq_some'.mp hfm with ⟨pt', hlk', hentryeq⟩
  rw [← hentryeq] at hpred hsnd
  simp only [Prod.mk.injEq] at hpred
  refine ⟨w, hwmem, m, hmms, hpred.1, hpred.2, ?_⟩
  rw [hlk']
  exact congrArg (fun x => some x) hsnd

/-- The MILP extraction step only emits decisions whose duration is exactly
the assigned machine's processing time for the wafer's recipe (machine and
wafer names must be unique, as the data model requires). -/
theorem milp_extract_duration (wafers : List Wafer) (machines : List Machine)
    (model : MipModel) (results : SolverResult)
    (hw : (wafers.map (fun w => w.name)).Nodup)
    (hm : (machines.map (fun m => m.name)).Nodup)
    (hpts : model.params.processing_times = defineProcessingTimesParameter wafers machines) :
    ∀ d ∈ (milpCreateFinalScheduleObject wafers machines model results).dispatch_decisions,
      lookupRecipe d.machine.processing_time_by_recipe d.wafer.recipe =
        some (d.stop - d.start) := by
  intro d hd
  unfold milpCreateFinalScheduleObject at hd
  rw [List.mem_insertionSort, List.mem_filterMap] at hd
  obtain ⟨p, hp, hmatch⟩ := hd
  by_cases hval : results.assignment_variable p.1 p.2 == 1
  · rw [if_pos hval] at hmatch
    rcases hgt : getDecisionTimes model.params.processing_times results.end_variable p.1 p.2
        with _ | ⟨s, e2⟩ <;>
      rcases hfw : wafers.find? (fun w => w.name == p.1) with _ | w <;>
      rcases hfm : machines.find? (fun m => m.name == p.2) with _ | m <;>
      simp only [hgt, hfw, hfm] at hmatch
    all_goals try exact Option.noConfusion hmatch
    injection hmatch with hmatch
    subst hmatch
    unfold getDecisionTimes at hgt
    rcases Option.map_eq_some'.mp hgt with ⟨pt, hlkp, htimes⟩
    rw [hpts] at hlkp
    obtain ⟨w', hw'mem, m', hm'mem, hw'n, hm'n, hlk⟩ := lookupPT_mem _ _ _ _ _ hlkp
    have hwmem := List.mem_of_find?_eq_some hfw
    have hwname : w.name = p.1 := by
      have := List.find?_some hfw
      simpa [beq_iff_eq] using this
    have hmmem := List.mem_of_find?_eq_some hfm
    have hmname : m.name = p.2 := by
      have := List.find?_some hfm
      simpa [beq_iff_eq] using this
    have hww : w' = w := List.inj_on_of_nodup_map hw hw'mem hwmem (by rw [hw'n, hwname])
    have hmm : m' = m := List.inj_on_of_nodup_map hm hm'mem hmmem (by rw [hm'n, hmname])
    rw [hww, hmm] at hlk
    simp only
    rw [hlk]
    have h1 : s = initialTimestamp + (results.end_variable p.1 - pt) :=
      (congrArg Prod.fst htimes).symm
    have h2 : e2 = initialTimestamp + results.end_variable p.1 :=
      (congrArg Prod.snd htimes).symm
    congr 1
    omega
  · rw [if_neg hval] at hmatch
    exact Option.noConfusion hmatch

/-- A successful parameter placeholder carries the processing-times dictionary
built from the inputs. -/
theorem createParametersPlaceholder_processing_times (wafers : List Wafer)
    (machines : List Machine) (alpha : ℚ) (params : MipParameters)
    (h : createParametersPlaceholder wafers machines alpha = .ok params) :
    params.processing_times = defineProcessingTimesParameter wafers machines := by
  unfold createParametersPlaceholder at h
  rcases hweights : defineObjectiveFunctionWeights alpha with e | ⟨pw, mw⟩ <;>
    simp only [hweights] at h
  · exact Except.noConfusion h
  · injection h with h
    rw [← h]

/-- C4: every decision emitted by any of the three schedulers has
`end − start` exactly equal to the assigned machine's processing time for the
wafer's recipe: for the two greedy policies whenever the run terminates, and
for the MILP extraction whatever values the solver collaborator returns
(given unique wafer and machine names, as the data model requires). -/
theorem c4_decision_duration (input : InputData) :
    (∀ (fuel : Nat) (sched : Schedule), legacyScheduleRun fuel input = some sched →
      ∀ d ∈ sched.dispatch_decisions,
        lookupRecipe d.machine.processing_time_by_recipe d.wafer.recipe =
          some (d.stop - d.start)) ∧
    (∀ (fuel : Nat) (sched : Schedule), betterScheduleRun fuel input = some sched →
      ∀ d ∈ sched.dispatch_decisions,
        lookupRecipe d.machine.processing_time_by_recipe d.wafer.recipe =
          some (d.stop - d.start)) ∧
    (∀ (alpha : ℚ) (solver : MipModel → SolverResult) (sched : Schedule),
      (input.wafers.map (fun w => w.name)).Nodup →
      (input.machines.map (fun m => m.name)).Nodup →
      milpScheduleRun input alpha solver = .ok sched →
      ∀ d ∈ sched.dispatch_decisions,
        lookupRecipe d.machine.processing_time_by_recipe d.wafer.recipe =
          some (d.stop - d.start)) := by
  refine ⟨fun fuel sched h => greedy_run_duration _ fuel input sched h,
    fun fuel sched h => greedy_run_duration _ fuel input sched h, ?_⟩
  intro alpha solver sched hw hm hrun
  have hwl : ((initWafersList input.wafers).map (fun w => w.name)).Nodup := by
    have hperm : List.Perm (initWafersList input.wafers) input.wafers :=
      List.perm_insertionSort waferRel input.wafers
    exact ((hperm.map (fun w => w.name)).nodup_iff).mpr hw
  unfold milpScheduleRun at hrun
  rcases hpl : (createParametersPlaceholder (initWafersList input.wafers) input.machines alpha)
    with e | params
  · simp only [hpl] at hrun
    exact Except.noConfusion hrun
  · simp only [hpl] at hrun
    rcases hext : (extractResults (solver (createModel (initWafersList input.wafers)
        input.machines params))) with e | u
    · simp only [hext] at hrun
      exact Except.noConfusion hrun
    · simp only [hext] at hrun
      injection hrun with hrun
      subst hrun
      exact milp_extract_duration _ _ _ _ hwl hm
        (createParametersPlaceholder_processing_times _ _ _ _ hpl)

/-- The schedule the greedy runs produce on `smallInput`. -/
def smallGreedySchedule : Schedule :=
  ⟨[⟨{ redWafer with compatible_machines := ["M1"] }, { recipeAMachine with free_time := 10 },
    27806940, 27806950⟩]⟩

/-- The schedule the MILP extraction produces on `smallInput` with a solver
returning end time 10 and assignment 1. -/
def smallMilpSchedule : Schedule := ⟨[⟨redWafer, recipeAMachine, 27806940, 27806950⟩]⟩

/-- A concrete solver collaborator for the witnesses. -/
def constantOkSolver : MipModel → SolverResult :=
  fun _ => ⟨SolverStatus.ok, TerminationCondition.optimal, fun _ => 10, fun _ _ => 1⟩

/-- Witness for C4 at `smallInput` for all three schedulers. -/
theorem c4_witness :
    (∀ d ∈ smallGreedySchedule.dispatch_decisions,
      lookupRecipe d.machine.processing_time_by_recipe d.wafer.recipe =
        some (d.stop - d.start)) ∧
    (∀ d ∈ smallGreedySchedule.dispatch_decisions,
      lookupRecipe d.machine.processing_time_by_recipe d.wafer.recipe =
        some (d.stop - d.start)) ∧
    (∀ d ∈ smallMilpSchedule.dispatch_decisions,
      lookupRecipe d.machine.processing_time_by_recipe d.wafer.recipe =
        some (d.stop - d.start)) :=
  ⟨(c4_decision_duration smallInput).1 3 smallGreedySchedule (by decide),
   (c4_decision_duration smallInput).2.1 3 smallGreedySchedule (by decide),
   (c4_decision_duration smallInput).2.2 1 constantOkSolver smallMilpSchedule
     (by decide) (by decide) (by rfl)⟩

end WafersSchedule
